import Mathlib

/-!
Verification of the OptME optimistic concurrent execution engine
(crates/sslab-execution/optme) against its natural-language specification.

Shallow embedding notes.

Storage-slot keys (H256 digests in the source) are modelled as natural
numbers; only equality of keys is ever used by the code under study, so no
modular arithmetic is needed.  hashbrown hash sets of keys are modelled as
Finset Nat (content-addressed, order-irrelevant, no duplicates — exactly the
observable behaviour of a hash set of H256).  Rust vectors are Lean lists.

The file address_based_conflict_graph.rs (graph construction, hierarchcial
sort, reorder) is not part of the provided sources; only its callers
(optme_core.rs) and its tests (tests/optme_tests.rs) are.  Definitions for
that part are modelled from the specification text and are marked
"Modelled from the spec" in their doc comments.  Everything else
(_unpack_batches, _simulate, _re_execute, _validate_optimistic_assumption,
_schedule_sorted_txs, _schedule_aborted_txs,
_find_minimun_epoch_with_no_conflicts, is_disjoint, prepare_execution) is
translated directly from the Rust sources in src/.
-/

/-- Storage-slot key: models ethers  H256 (a 256-bit digest); only equality is used. -/
abbrev Key := Nat

/-- Contract address: models H160; only equality is used. -/
abbrev Addr := Nat

/-- Models evm RwSet: per-address maps of read keys and written keys.
Values are irrelevant to the scheduler and are dropped; each entry is an
(address, storage key) pair as recorded by record_read_key / record_write_key. -/
structure RwSet where
  reads : List (Addr × Key)
  writes : List (Addr × Key)
deriving DecidableEq

/-- Models types.rs extract_read_set: flattens the per-address read maps of an
RwSet into one hash set of storage keys (the contract address is dropped). -/
def extract_read_set (rw : RwSet) : Finset Key :=
  (rw.reads.map Prod.snd).toFinset

/-- Models types.rs extract_write_set: flattens the per-address write maps of an
RwSet into one hash set of storage keys (the contract address is dropped). -/
def extract_write_set (rw : RwSet) : Finset Key :=
  (rw.writes.map Prod.snd).toFinset

/-- Models sslab_execution types IndexedEthereumTransaction: an abstract decoded
transaction payload plus the id assigned by position in the window. -/
structure IndexedEthereumTransaction where
  tx : Nat
  id : Nat
deriving DecidableEq

/-- Models types.rs SimulatedTransaction (the fields used downstream:
tx_id, read_set, write_set, effects, logs, raw_tx).  Effects and logs are
abstract tokens. -/
structure SimulatedTransaction where
  tx_id : Nat
  read_set : Finset Key
  write_set : Finset Key
  effects : List Nat
  logs : List Nat
  raw_tx : IndexedEthereumTransaction
deriving DecidableEq

/-- Models SimulatedTransaction::new: extracts the read and write key sets
from the recorded RwSet and takes the id from the raw indexed transaction. -/
def SimulatedTransaction.new (rw : RwSet) (effects logs : List Nat)
    (raw : IndexedEthereumTransaction) : SimulatedTransaction :=
  { tx_id := raw.id
    read_set := extract_read_set rw
    write_set := extract_write_set rw
    effects := effects
    logs := logs
    raw_tx := raw }

/-- Models hashbrown HashSet::is_disjoint (iterate one set, probe the other):
true iff no element of a lies in b. -/
def hashset_is_disjoint {K : Type} [DecidableEq K] (a b : Finset K) : Bool :=
  decide (∀ x ∈ a, x ∉ b)

/-- Models types.rs is_disjoint: probes the smaller set against the larger one. -/
def is_disjoint {K : Type} [DecidableEq K] (left right : Finset K) : Bool :=
  (decide (left.card ≤ right.card) && hashset_is_disjoint left right) ||
    (decide (left.card > right.card) && hashset_is_disjoint right left)

/-- Outcome of one EVM simulation, models
simulate(tx, snapshot) -> Ok(Some((effects, logs, rw_set))) | Ok(None) | Err(e).
The error payload is irrelevant and collapsed to Unit. -/
inductive SimOutcome where
  | okSome (effects logs : List Nat) (rw : RwSet)
  | okNone
  | err
deriving DecidableEq

/-- Simulation oracle: the abstract EVM primitive, deterministic in the
transaction (the snapshot is fixed for one pass). -/
abbrev SimOracle := IndexedEthereumTransaction → SimOutcome

/-- Models optme_core.rs _simulate: run each transaction through the oracle
and keep a SimulatedTransaction exactly for the Ok(Some _) outcomes; reverted
(Ok(None)) and failing (Err) transactions are dropped (filter_map). -/
def _simulate (sim : SimOracle) (tx_list : List IndexedEthereumTransaction) :
    List SimulatedTransaction :=
  tx_list.filterMap fun tx =>
    match sim tx with
    | SimOutcome.okSome effect log rw_set =>
        some (SimulatedTransaction.new rw_set effect log tx)
    | _ => none

/-- Tests whether a simulation outcome is a normal completion Ok(Some _). -/
def SimOutcome.isOkSome : SimOutcome → Bool
  | SimOutcome.okSome _ _ _ => true
  | _ => false

/-- Models narwhal ExecutableEthereumBatch: a digest plus the decoded
transaction payloads it carries. -/
structure ExecutableEthereumBatch where
  digest : Nat
  data : List Nat
deriving DecidableEq

/-- Models types.rs AbortedTransaction: the raw transaction plus the rw keys
recorded during its latest simulation. -/
structure AbortedTransaction where
  raw_tx : IndexedEthereumTransaction
  prev_write_keys : Finset Key
  prev_read_keys : Finset Key
deriving DecidableEq

/-- Models AbortedTransaction::from(Arc<Transaction>): keeps the raw
transaction and the read and write key sets of the latest simulation. -/
def AbortedTransaction.from (t : SimulatedTransaction) : AbortedTransaction :=
  { raw_tx := t.raw_tx, prev_write_keys := t.write_set, prev_read_keys := t.read_set }

/-- Models AbortedTransaction::id. -/
def AbortedTransaction.id (a : AbortedTransaction) : Nat := a.raw_tx.id

/-- Models types.rs FinalizedTransaction: the minimal form fed to the committer. -/
structure FinalizedTransaction where
  id : Nat
  effect : List Nat
deriving DecidableEq

/-- Intermediate result of the hierarchical sort, modelled from the spec:
scheduled transactions paired with their epoch number seq, plus the abort set. -/
structure SortState where
  scheduled : List (SimulatedTransaction × Nat)
  aborted : List SimulatedTransaction
deriving DecidableEq

/-- Modelled from the spec: graph construction of the missing
address_based_conflict_graph.rs.  The spec reduces the per-key unit lists to
their effect on the sort: simulation results are collected and sorted by id
before the ACG step (spec section 5, ordering guarantees). -/
def acg_construct (txs : List SimulatedTransaction) : List SimulatedTransaction :=
  txs.insertionSort (fun a b => a.tx_id ≤ b.tx_id)

/-- Modelled from the spec: the epoch assigned to a transaction by the
hierarchical sort of the missing address_based_conflict_graph.rs.
seq(t) = 1 + max seq(u) over prior transactions u whose write set intersects
the read or write set of t (1 when no such u exists). -/
def hier_seq (sched : List (SimulatedTransaction × Nat))
    (t : SimulatedTransaction) : Nat :=
  (((sched.filter fun p =>
      (p.1.write_set ∩ (t.read_set ∪ t.write_set)).Nonempty).map Prod.snd).foldr
    max 0) + 1

/-- Modelled from the spec: the abort condition of the hierarchical sort of
the missing address_based_conflict_graph.rs; a transaction is aborted when
its epoch assignment would place it in the same epoch as a prior writer of a
key it writes. -/
def hier_abort (sched : List (SimulatedTransaction × Nat))
    (t : SimulatedTransaction) : Prop :=
  ∃ p ∈ sched, p.2 = hier_seq sched t ∧ (p.1.write_set ∩ t.write_set).Nonempty

instance (sched : List (SimulatedTransaction × Nat)) (t : SimulatedTransaction) :
    Decidable (hier_abort sched t) := by
  unfold hier_abort; infer_instance

/-- Modelled from the spec: one step of the hierarchical sort of the missing
address_based_conflict_graph.rs; the transaction is scheduled at hier_seq
or sent to the abort set when hier_abort fires. -/
def hier_step (st : SortState) (t : SimulatedTransaction) : SortState :=
  if hier_abort st.scheduled t then
    { st with aborted := st.aborted ++ [t] }
  else
    { st with scheduled := st.scheduled ++ [(t, hier_seq st.scheduled t)] }

/-- Modelled from the spec: the hierarchical sort of the missing
address_based_conflict_graph.rs processes transactions in increasing id
order and assigns each one an epoch or places it in the abort set. -/
def hierarchcial_sort (txs : List SimulatedTransaction) : SortState :=
  (acg_construct txs).foldl hier_step { scheduled := [], aborted := [] }

/-- Modelled from the spec: side condition of the reorder step of the missing
address_based_conflict_graph.rs.  A pure reader t currently at epoch s may
move to the earlier epoch e if no transaction with a larger id in epoch e
writes a key t reads. -/
def reorder_ok (sched : List (SimulatedTransaction × Nat))
    (t : SimulatedTransaction) (s e : Nat) : Prop :=
  t.write_set = ∅ ∧ 1 ≤ e ∧ e ≤ s ∧
    ∀ p ∈ sched, p.2 = e → t.tx_id < p.1.tx_id →
      p.1.write_set ∩ t.read_set = ∅

instance (sched : List (SimulatedTransaction × Nat))
    (t : SimulatedTransaction) (s e : Nat) : Decidable (reorder_ok sched t s e) := by
  unfold reorder_ok; infer_instance

/-- Modelled from the spec: the reorder step of the missing
address_based_conflict_graph.rs.  The spec says a pure reader MAY move to an
earlier epoch when the side condition holds; the model is parametrised by the
demotion choice and applies it exactly where the side condition permits, so
theorems quantify over every demotion the spec allows. -/
def reorder (choice : SimulatedTransaction → Nat → Nat) (st : SortState) : SortState :=
  { st with scheduled := st.scheduled.map fun p =>
      if reorder_ok st.scheduled p.1 p.2 (choice p.1 p.2) then (p.1, choice p.1 p.2)
      else p }

/-- Epoch numbers occurring in a sorted schedule, in increasing order, models
the grouping key order of _schedule_sorted_txs after sort_unstable_by_key. -/
def epoch_values (sched : List (SimulatedTransaction × Nat)) : List Nat :=
  ((sched.map Prod.snd).dedup).insertionSort (fun a b => a ≤ b)

/-- Models optme_core.rs _schedule_sorted_txs at the transaction level: sort
the scheduled transactions by seq and group equal seq values into epochs
(sort_unstable_by_key then group_by; intra-epoch order is irrelevant by the
spec and is taken in list order here). -/
def _schedule_sorted_groups (sched : List (SimulatedTransaction × Nat)) :
    List (List (SimulatedTransaction × Nat)) :=
  (epoch_values sched).map fun s => sched.filter fun p => p.2 = s

/-- Models types.rs ScheduledTransaction::from then FinalizedTransaction::from:
strip a scheduled transaction to its id and effects. -/
def FinalizedTransaction.fromScheduled (p : SimulatedTransaction × Nat) :
    FinalizedTransaction :=
  { id := p.1.tx_id, effect := p.1.effects }

/-- Models optme_core.rs _schedule_sorted_txs: the epoch partition mapped to
FinalizedTransaction form. -/
def _schedule_sorted_txs (sched : List (SimulatedTransaction × Nat)) :
    List (List FinalizedTransaction) :=
  (_schedule_sorted_groups sched).map fun g => g.map FinalizedTransaction.fromScheduled

/-- Loop of _find_minimun_epoch_with_no_conflicts: advance while the current
epoch's occupied keys intersect the transaction's keys. -/
def find_epoch_loop (keys_of_tx : Finset Key) : List (Finset Key) → Nat
  | [] => 0
  | w :: rest =>
      if keys_of_tx ∩ w = ∅ then 0 else find_epoch_loop keys_of_tx rest + 1

/-- Models optme_core.rs _find_minimun_epoch_with_no_conflicts: walk the
occupied-write-key sets from epoch 0 upward and stop at the first epoch whose
occupied set is disjoint from the read-union-write keys of the transaction;
past the end means a new epoch. -/
def _find_minimun_epoch_with_no_conflicts (read_keys_of_tx write_keys_of_tx : Finset Key)
    (epoch_map : List (Finset Key)) : Nat :=
  find_epoch_loop (read_keys_of_tx ∪ write_keys_of_tx) epoch_map

/-- One step of the packing loop of _schedule_aborted_txs: place one aborted
transaction in the first conflict-free sub-epoch, extending that sub-epoch's
occupied write keys, or open a new sub-epoch. -/
def pack_step (acc : List (Finset Key) × List (List AbortedTransaction))
    (tx : AbortedTransaction) :
    List (Finset Key) × List (List AbortedTransaction) :=
  let epoch_map := acc.1
  let schedule := acc.2
  let epoch := _find_minimun_epoch_with_no_conflicts tx.prev_read_keys
    tx.prev_write_keys epoch_map
  if h : epoch < epoch_map.length then
    (epoch_map.set epoch (epoch_map.get ⟨epoch, h⟩ ∪ tx.prev_write_keys),
      schedule.set epoch ((schedule.getD epoch []) ++ [tx]))
  else
    (epoch_map ++ [tx.prev_write_keys], schedule ++ [[tx]])

/-- Models optme_core.rs _schedule_aborted_txs: with rescheduling enabled,
sort the aborted transactions by id and pack each one into the first
sub-epoch whose occupied write keys are disjoint from its read and write
keys; with the disable-rescheduling feature the packing loop is skipped and
the schedule stays empty. -/
def _schedule_aborted_txs (disable_rescheduling : Bool)
    (txs : List AbortedTransaction) : List (List AbortedTransaction) :=
  if disable_rescheduling then []
  else
    ((txs.insertionSort (fun a b => a.id ≤ b.id)).foldl pack_step ([], [])).2

/-- Models types.rs ReExecutedTransaction: the raw transaction with the
effects, logs and rw set of its re-simulation. -/
structure ReExecutedTransaction where
  tx : IndexedEthereumTransaction
  effect : List Nat
  log : List Nat
  rw_set : RwSet
deriving DecidableEq

/-- Models ReExecutedTransaction::write_set: extract the write keys from the
recorded rw set. -/
def ReExecutedTransaction.write_set (t : ReExecutedTransaction) : Finset Key :=
  extract_write_set t.rw_set

/-- Models optme_core.rs _re_execute: re-simulate each transaction against the
current snapshot and keep a ReExecutedTransaction for the Ok(Some _) outcomes
(filter_map, same shape as _simulate). -/
def _re_execute (sim : SimOracle) (tx_list : List IndexedEthereumTransaction) :
    List ReExecutedTransaction :=
  tx_list.filterMap fun tx =>
    match sim tx with
    | SimOutcome.okSome effect log rw_set =>
        some { tx := tx, effect := effect, log := log, rw_set := rw_set }
    | _ => none

/-- Models types.rs FinalizedTransaction::from(ReExecutedTransaction). -/
def FinalizedTransaction.fromReExecuted (t : ReExecutedTransaction) :
    FinalizedTransaction :=
  { id := t.tx.id, effect := t.effect }

/-- One step of the validation loop of _validate_optimistic_assumption:
accept the transaction when its write set is disjoint from the accumulated
write-set union (checked with is_disjoint), extending the union; reject it
otherwise.  The accumulator is (valid_txs, invalid_txs, write_set). -/
def validate_step
    (acc : List ReExecutedTransaction × List ReExecutedTransaction × Finset Key)
    (tx : ReExecutedTransaction) :
    List ReExecutedTransaction × List ReExecutedTransaction × Finset Key :=
  let s := tx.write_set
  if is_disjoint s acc.2.2 then (acc.1 ++ [tx], acc.2.1, acc.2.2 ∪ s)
  else (acc.1, acc.2.1 ++ [tx], acc.2.2)

/-- Models optme_core.rs _validate_optimistic_assumption.  Returns the list of
transactions passed to _concurrent_commit_2 (the committed subset) together
with the value returned to the caller: a singleton list is committed whole
with no validation and None is returned; otherwise the loop splits the list
into valid and invalid transactions, the valid ones are committed, and
Some(invalid) is returned exactly when any were rejected. -/
def _validate_optimistic_assumption (rw_set : List ReExecutedTransaction) :
    List ReExecutedTransaction × Option (List ReExecutedTransaction) :=
  if rw_set.length = 1 then (rw_set, none)
  else
    let r := rw_set.foldl validate_step ([], [], ∅)
    (r.1, if r.2.1 = [] then none else some r.2.1)

/-- Models narwhal BatchDigest extraction in _unpack_batches. -/
def ExecutableEthereumBatch.digestOf (b : ExecutableEthereumBatch) : Nat := b.digest

/-- Models optme_core.rs _unpack_batches: split the consensus output into the
batch digests (in batch order) and the flattened transaction list, each
transaction indexed by its position (enumerate). -/
def _unpack_batches (consensus_output : List ExecutableEthereumBatch) :
    List Nat × List IndexedEthereumTransaction :=
  (consensus_output.map ExecutableEthereumBatch.digestOf,
    ((consensus_output.map ExecutableEthereumBatch.data).flatten.enum).map
      fun p => { tx := p.2, id := p.1 })

/-- Models optme_core.rs ScheduledInfo. -/
structure ScheduledInfo where
  scheduled_txs : List (List FinalizedTransaction)
  aborted_txs : List (List AbortedTransaction)

/-- Models ScheduledInfo::from at the end of the ACG pipeline: schedule the
sorted transactions into epochs and pack the aborted ones into sub-epochs. -/
def ScheduledInfo.fromSort (disable_rescheduling : Bool) (st : SortState) :
    ScheduledInfo :=
  { scheduled_txs := _schedule_sorted_txs st.scheduled
    aborted_txs := _schedule_aborted_txs disable_rescheduling
      (st.aborted.map AbortedTransaction.from) }

/-- The ACG pipeline construct, hierarchcial_sort, reorder (sort and reorder
modelled from the spec), stopping just before schedule extraction. -/
def acg_pipeline (choice : SimulatedTransaction → Nat → Nat)
    (txs : List SimulatedTransaction) : SortState :=
  reorder choice (hierarchcial_sort txs)

/-- Epoch partition of the scheduled transactions produced by the full ACG
pipeline, kept at the transaction level so write sets remain visible
( _schedule_sorted_txs strips them into FinalizedTransaction form). -/
def scheduled_groups (choice : SimulatedTransaction → Nat → Nat)
    (txs : List SimulatedTransaction) : List (List (SimulatedTransaction × Nat)) :=
  _schedule_sorted_groups (acg_pipeline choice txs).scheduled

/-- Outcome of _execute visible to callers and to the committer: the batch
digests returned, the epochs committed (first pass then each second-pass
commit), the transactions fed to re-execution, and the invalidated ones. -/
structure ExecOutcome where
  digests : List Nat
  committed : List (List FinalizedTransaction)
  reexecuted : List ReExecutedTransaction
  invalidated : List ReExecutedTransaction

/-- Models optme_core.rs _execute: unpack the window, simulate, run the ACG
pipeline, commit the scheduled epochs, then for each aborted sub-epoch
re-execute, validate optimistically and commit the valid subset; the batch
digests from unpacking are returned unconditionally.  sim and resim are the
EVM oracle before and after the first-pass commit. -/
def _execute (disable_rescheduling : Bool) (sim resim : SimOracle)
    (choice : SimulatedTransaction → Nat → Nat)
    (consensus_output : List ExecutableEthereumBatch) : ExecOutcome :=
  let unpacked := _unpack_batches consensus_output
  let rw_sets := _simulate sim unpacked.2
  let st := acg_pipeline choice rw_sets
  let info := ScheduledInfo.fromSort disable_rescheduling st
  let second := info.aborted_txs.map fun grp =>
    let rw := _re_execute resim (grp.map AbortedTransaction.raw_tx)
    (rw, _validate_optimistic_assumption rw)
  { digests := unpacked.1
    committed := info.scheduled_txs ++
      second.map fun p => p.2.1.map FinalizedTransaction.fromReExecuted
    reexecuted := (second.map fun p => p.1).flatten
    invalidated := (second.map fun p => (p.2.2.getD [])).flatten }

/-- Models the window loop of optme_core.rs prepare_execution: repeatedly
split off the first min(concurrency_level, remaining) batches as a window.
The source loops forever when concurrency_level is zero (split_off(0) leaves
the target empty and the remainder whole); the model returns no windows in
that case and the theorems assume a positive concurrency level. -/
def prepare_execution_windows (concurrency_level : Nat)
    (consensus_output : List ExecutableEthereumBatch) :
    List (List ExecutableEthereumBatch) :=
  if h : consensus_output.isEmpty ∨ concurrency_level = 0 then []
  else
    consensus_output.take (min concurrency_level consensus_output.length) ::
      prepare_execution_windows concurrency_level
        (consensus_output.drop (min concurrency_level consensus_output.length))
termination_by consensus_output.length
decreasing_by
  simp only [List.length_drop]
  have h1 : ¬consensus_output.isEmpty := fun hx => h (Or.inl hx)
  have h2 : concurrency_level ≠ 0 := fun hx => h (Or.inr hx)
  have hlen : 0 < consensus_output.length := by
    cases consensus_output with
    | nil => simp at h1
    | cons a l => simp
  omega

/-- Models optme_core.rs prepare_execution: execute each window in order and
concatenate the returned digests. -/
def prepare_execution (concurrency_level : Nat) (disable_rescheduling : Bool)
    (sim resim : SimOracle) (choice : SimulatedTransaction → Nat → Nat)
    (consensus_output : List ExecutableEthereumBatch) : List Nat :=
  ((prepare_execution_windows concurrency_level consensus_output).map fun w =>
    (_execute disable_rescheduling sim resim choice w).digests).flatten

/-- Reference form of the optimistic validation loop, following the claim's
words for comparison with the source model: iterate in order keeping a
running write-set union W; accept a transaction exactly when its write set
meets W in no key, extending W with its writes; reject it otherwise.
Returns (accepted, rejected, final W). -/
def optimistic_validation_spec (W : Finset Key) :
    List ReExecutedTransaction →
      List ReExecutedTransaction × List ReExecutedTransaction × Finset Key
  | [] => ([], [], W)
  | tx :: rest =>
      if tx.write_set ∩ W = ∅ then
        let r := optimistic_validation_spec (W ∪ tx.write_set) rest
        (tx :: r.1, r.2.1, r.2.2)
      else
        let r := optimistic_validation_spec W rest
        (r.1, tx :: r.2.1, r.2.2)

/-- Reference form of one aborted-transaction packing step, following the
claim's words: the sub-epoch index is the smallest index whose occupied
write keys are disjoint from the transaction's read and write keys
(List.findIdx? returns the first, hence smallest, matching index); a new
sub-epoch is appended when no index fits. -/
def pack_spec_step (acc : List (Finset Key) × List (List AbortedTransaction))
    (tx : AbortedTransaction) :
    List (Finset Key) × List (List AbortedTransaction) :=
  let keys := tx.prev_read_keys ∪ tx.prev_write_keys
  match acc.1.findIdx? fun w => decide (keys ∩ w = ∅) with
  | some i =>
      (acc.1.set i ((acc.1.getD i ∅) ∪ tx.prev_write_keys),
        acc.2.set i ((acc.2.getD i []) ++ [tx]))
  | none => (acc.1 ++ [tx.prev_write_keys], acc.2 ++ [[tx]])

/-- Reference form of _schedule_aborted_txs with rescheduling enabled,
following the claim's words. -/
def schedule_aborted_spec (txs : List AbortedTransaction) :
    List (List AbortedTransaction) :=
  (((txs.insertionSort (fun a b => a.id ≤ b.id)).foldl pack_spec_step ([], []))).2

/-- Concrete re-executed transactions used to witness the validation claim:
both write storage key 7, so the second is rejected. -/
def reTxA : ReExecutedTransaction :=
  { tx := { tx := 100, id := 0 }, effect := [1], log := [],
    rw_set := { reads := [], writes := [(1, 7)] } }

/-- Second witness transaction for the validation claim. -/
def reTxB : ReExecutedTransaction :=
  { tx := { tx := 101, id := 1 }, effect := [2], log := [],
    rw_set := { reads := [], writes := [(1, 7), (1, 8)] } }

/-- Relation underlying the per-epoch write-disjointness invariant: two
scheduled entries in the same epoch have disjoint write sets. -/
def epoch_disjoint_rel (p q : SimulatedTransaction × Nat) : Prop :=
  p.2 = q.2 → Disjoint p.1.write_set q.1.write_set

/-- Raw transactions of the scheduled side of the pipeline output, in
schedule order. -/
def scheduled_raws (choice : SimulatedTransaction → Nat → Nat)
    (txs : List SimulatedTransaction) : List IndexedEthereumTransaction :=
  ((scheduled_groups choice txs).flatten).map fun p => p.1.raw_tx

/-- Raw transactions of the aborted side of the pipeline output (rescheduling
enabled), in sub-epoch order. -/
def aborted_raws (choice : SimulatedTransaction → Nat → Nat)
    (txs : List SimulatedTransaction) : List IndexedEthereumTransaction :=
  (((ScheduledInfo.fromSort false (acg_pipeline choice txs)).aborted_txs).flatten).map
    AbortedTransaction.raw_tx

/-- First concrete scheduled transaction for the invariant witnesses. -/
def simA : SimulatedTransaction :=
  { tx_id := 1, read_set := ∅, write_set := {1}, effects := [11], logs := [],
    raw_tx := { tx := 201, id := 1 } }

/-- Second concrete scheduled transaction for the invariant witnesses; its
write set is disjoint from simA's, so both land in epoch 1. -/
def simB : SimulatedTransaction :=
  { tx_id := 2, read_set := ∅, write_set := {2}, effects := [22], logs := [],
    raw_tx := { tx := 202, id := 2 } }

/-- Demotion choice that moves nothing: the spec's reorder MAY demote a pure
reader, and keeping every epoch is one permitted choice. -/
def trivial_choice : SimulatedTransaction → Nat → Nat := fun _ s => s

/-- Models the test helper transaction_with_rw of tests/optme_tests.rs: a
transaction with the given id reading one storage slot and writing one
storage slot of contract 1. -/
def transaction_with_rw (tx_id read_addr write_addr : Nat) : SimulatedTransaction :=
  SimulatedTransaction.new
    { reads := [(1, read_addr)], writes := [(1, write_addr)] } [] []
    { tx := 0, id := tx_id }

/-- Input of test_scenario_1 of tests/optme_tests.rs: transactions
1(2 to 1), 2(3 to 2), 3(4 to 2), 4(4 to 3), 5(4 to 4), 6(1 to 3)
(read slot to written slot). -/
def scenario_1_txs : List SimulatedTransaction :=
  [transaction_with_rw 1 2 1, transaction_with_rw 2 3 2, transaction_with_rw 3 4 2,
    transaction_with_rw 4 4 3, transaction_with_rw 5 4 4, transaction_with_rw 6 1 3]

/-- Claim C10: is_disjoint decides set disjointness and is symmetric,
whichever of the two sets is larger. -/
theorem is_disjoint_correct_and_symm {K : Type} [DecidableEq K]
    (left right : Finset K) :
    (is_disjoint left right = true ↔ left ∩ right = ∅) ∧
      is_disjoint left right = is_disjoint right left := by
  have hdis : ∀ a b : Finset K, hashset_is_disjoint a b = true ↔ a ∩ b = ∅ := by
    intro a b
    constructor
    · intro h
      have h1 : ∀ x ∈ a, x ∉ b := of_decide_eq_true h
      exact Finset.disjoint_iff_inter_eq_empty.mp (Finset.disjoint_left.mpr h1)
    · intro h
      exact decide_eq_true
        (Finset.disjoint_left.mp (Finset.disjoint_iff_inter_eq_empty.mpr h))
  have hswap : ∀ a b : Finset K, hashset_is_disjoint a b = hashset_is_disjoint b a := by
    intro a b
    unfold hashset_is_disjoint
    refine decide_eq_decide.mpr ?_
    constructor
    · intro h x hx hxa
      exact h x hxa hx
    · intro h x hx hxb
      exact h x hxb hx
  constructor
  · constructor
    · intro h
      rcases Bool.or_eq_true_iff.mp h with h1 | h1
      · exact (hdis left right).mp (Bool.and_eq_true_iff.mp h1).2
      · have h2 := (hdis right left).mp (Bool.and_eq_true_iff.mp h1).2
        rw [Finset.inter_comm]; exact h2
    · intro h
      rcases le_or_lt left.card right.card with hc | hc
      · exact Bool.or_eq_true_iff.mpr (Or.inl (Bool.and_eq_true_iff.mpr
          ⟨decide_eq_true (by omega), (hdis left right).mpr h⟩))
      · refine Bool.or_eq_true_iff.mpr (Or.inr (Bool.and_eq_true_iff.mpr
          ⟨decide_eq_true (by omega), (hdis right left).mpr ?_⟩))
        rw [Finset.inter_comm]; exact h
  · rcases Nat.lt_trichotomy left.card right.card with hc | hc | hc
    · have h1 : decide (left.card ≤ right.card) = true := decide_eq_true (by omega)
      have h2 : decide (left.card > right.card) = false :=
        decide_eq_false (by omega)
      have h3 : decide (right.card ≤ left.card) = false :=
        decide_eq_false (by omega)
      have h4 : decide (right.card > left.card) = true := decide_eq_true (by omega)
      simp [is_disjoint, h1, h2, h3, h4, hswap left right]
    · have h1 : decide (left.card ≤ right.card) = true :=
        decide_eq_true (by omega)
      have h3 : decide (right.card ≤ left.card) = true :=
        decide_eq_true (by omega)
      have h2 : decide (left.card > right.card) = false :=
        decide_eq_false (by omega)
      have h4 : decide (right.card > left.card) = false :=
        decide_eq_false (by omega)
      simp [is_disjoint, h1, h2, h3, h4, hswap left right]
    · have h1 : decide (left.card ≤ right.card) = false :=
        decide_eq_false (by omega)
      have h2 : decide (left.card > right.card) = true := decide_eq_true (by omega)
      have h3 : decide (right.card ≤ left.card) = true := decide_eq_true (by omega)
      have h4 : decide (right.card > left.card) = false :=
        decide_eq_false (by omega)
      simp [is_disjoint, h1, h2, h3, h4, hswap left right]

/-- Claim C8: _simulate yields a SimulatedTransaction exactly for the inputs
whose simulation returns Ok(Some(effects, logs, rw_set)); reverted or failing
transactions contribute nothing (membership characterisation plus an exact
count, so dropped transactions add no element). -/
theorem simulate_keeps_exactly_ok_some (sim : SimOracle)
    (tx_list : List IndexedEthereumTransaction) :
    (∀ s, s ∈ _simulate sim tx_list ↔
        ∃ tx ∈ tx_list, ∃ effect log rw_set,
          sim tx = SimOutcome.okSome effect log rw_set ∧
            s = SimulatedTransaction.new rw_set effect log tx) ∧
      (_simulate sim tx_list).length =
        tx_list.countP (fun tx => SimOutcome.isOkSome (sim tx)) := by
  constructor
  · intro s
    constructor
    · intro hs
      rcases List.mem_filterMap.mp hs with ⟨tx, htx, hmk⟩
      refine ⟨tx, htx, ?_⟩
      cases hsim : sim tx with
      | okSome e l rw =>
          rw [hsim] at hmk
          simp only [Option.some.injEq] at hmk
          exact ⟨e, l, rw, rfl, hmk.symm⟩
      | okNone => rw [hsim] at hmk; simp at hmk
      | err => rw [hsim] at hmk; simp at hmk
    · rintro ⟨tx, htx, e, l, rw, hsim, hs⟩
      refine List.mem_filterMap.mpr ⟨tx, htx, ?_⟩
      rw [hsim, hs]
  · induction tx_list with
    | nil => rfl
    | cons tx rest ih =>
        cases hsim : sim tx with
        | okSome e l rw =>
            simp [_simulate, List.filterMap_cons, hsim, List.countP_cons,
              SimOutcome.isOkSome] at ih ⊢
            exact ih
        | okNone =>
            simp [_simulate, List.filterMap_cons, hsim, List.countP_cons,
              SimOutcome.isOkSome] at ih ⊢
            exact ih
        | err =>
            simp [_simulate, List.filterMap_cons, hsim, List.countP_cons,
              SimOutcome.isOkSome] at ih ⊢
            exact ih

/-- Bridge lemma: the card-probing is_disjoint of types.rs returns true
exactly on disjoint sets. -/
theorem is_disjoint_true_iff {K : Type} [DecidableEq K] (l r : Finset K) :
    is_disjoint l r = true ↔ l ∩ r = ∅ := by
  have hdis : ∀ a b : Finset K, hashset_is_disjoint a b = true ↔ a ∩ b = ∅ := by
    intro a b
    constructor
    · intro h
      have h1 : ∀ x ∈ a, x ∉ b := of_decide_eq_true h
      exact Finset.disjoint_iff_inter_eq_empty.mp (Finset.disjoint_left.mpr h1)
    · intro h
      exact decide_eq_true
        (Finset.disjoint_left.mp (Finset.disjoint_iff_inter_eq_empty.mpr h))
  constructor
  · intro h
    rcases Bool.or_eq_true_iff.mp h with h1 | h1
    · exact (hdis l r).mp (Bool.and_eq_true_iff.mp h1).2
    · have h2 := (hdis r l).mp (Bool.and_eq_true_iff.mp h1).2
      rw [Finset.inter_comm]; exact h2
  · intro h
    rcases le_or_lt l.card r.card with hc | hc
    · exact Bool.or_eq_true_iff.mpr (Or.inl (Bool.and_eq_true_iff.mpr
        ⟨decide_eq_true (by omega), (hdis l r).mpr h⟩))
    · refine Bool.or_eq_true_iff.mpr (Or.inr (Bool.and_eq_true_iff.mpr
        ⟨decide_eq_true (by omega), (hdis r l).mpr ?_⟩))
      rw [Finset.inter_comm]; exact h

/-- Unfolding lemma: the validation fold of the source tracks the reference
recursion of the claim, whatever the starting accumulator. -/
theorem validate_foldl_spec (txs : List ReExecutedTransaction) :
    ∀ (valid invalid : List ReExecutedTransaction) (W : Finset Key),
      txs.foldl validate_step (valid, invalid, W) =
        (valid ++ (optimistic_validation_spec W txs).1,
          invalid ++ (optimistic_validation_spec W txs).2.1,
          (optimistic_validation_spec W txs).2.2) := by
  induction txs with
  | nil => intro valid invalid W; simp [optimistic_validation_spec]
  | cons tx rest ih =>
      intro valid invalid W
      by_cases hd : tx.write_set ∩ W = ∅
      · have hb : is_disjoint tx.write_set W = true := (is_disjoint_true_iff _ _).mpr hd
        simp only [List.foldl_cons, validate_step, hb, if_true,
          optimistic_validation_spec, hd]
        rw [ih]
        simp
      · have hb : is_disjoint tx.write_set W = false := by
          rcases Bool.eq_false_or_eq_true (is_disjoint tx.write_set W) with hx | hx
          · exact absurd ((is_disjoint_true_iff _ _).mp hx) hd
          · exact hx
        simp only [List.foldl_cons, validate_step, hb, Bool.false_eq_true, if_false,
          optimistic_validation_spec, hd]
        rw [ih]
        simp

/-- Claim C4: on a list of at least two re-executed transactions in
increasing id order, _validate_optimistic_assumption commits exactly the
subset accepted by the running write-set-union rule of the spec (accept iff
the write set meets the union of previously accepted write sets in no key)
and returns Some of the rejected transactions exactly when any were
rejected; a singleton list is committed whole with no validation and None is
returned. -/
theorem validate_optimistic_assumption_correct :
    (∀ txs : List ReExecutedTransaction,
        txs.Pairwise (fun a b => a.tx.id < b.tx.id) →
        2 ≤ txs.length →
        _validate_optimistic_assumption txs =
          ((optimistic_validation_spec ∅ txs).1,
            if (optimistic_validation_spec ∅ txs).2.1 = [] then none
            else some (optimistic_validation_spec ∅ txs).2.1)) ∧
      ∀ tx : ReExecutedTransaction, _validate_optimistic_assumption [tx] = ([tx], none) := by
  constructor
  · intro txs hsorted hlen
    have hne : ¬txs.length = 1 := by omega
    unfold _validate_optimistic_assumption
    rw [if_neg hne, validate_foldl_spec]
    simp
  · intro tx
    simp [_validate_optimistic_assumption]

/-- Witness for claim C4 at a concrete conflicting pair. -/
theorem validate_optimistic_assumption_correct_witness :
    List.Pairwise (fun a b => a.tx.id < b.tx.id) [reTxA, reTxB] ∧
      2 ≤ ([reTxA, reTxB] : List ReExecutedTransaction).length ∧
      _validate_optimistic_assumption [reTxA, reTxB] =
        ((optimistic_validation_spec ∅ [reTxA, reTxB]).1,
          if (optimistic_validation_spec ∅ [reTxA, reTxB]).2.1 = [] then none
          else some (optimistic_validation_spec ∅ [reTxA, reTxB]).2.1) :=
  ⟨by decide, by decide,
    validate_optimistic_assumption_correct.1 [reTxA, reTxB] (by decide) (by decide)⟩

/-- Looking for a conflict-free epoch: the while loop of the source stops at
the first disjoint occupied set (the smallest such index, List.findIdx?) or
runs past the end of the epoch map. -/
theorem find_epoch_loop_dichotomy (keys : Finset Key) (l : List (Finset Key)) :
    (find_epoch_loop keys l = l.length ∧
        l.findIdx? (fun w => decide (keys ∩ w = ∅)) = none) ∨
      (l.findIdx? (fun w => decide (keys ∩ w = ∅)) = some (find_epoch_loop keys l) ∧
        find_epoch_loop keys l < l.length) := by
  induction l with
  | nil => exact Or.inl ⟨rfl, rfl⟩
  | cons w rest ih =>
      by_cases hw : keys ∩ w = ∅
      · right
        constructor
        · simp [List.findIdx?_cons, hw, find_epoch_loop]
        · simp [find_epoch_loop, hw]
      · rcases ih with ⟨h1, h2⟩ | ⟨h1, h2⟩
        · left
          constructor
          · simp [find_epoch_loop, hw, h1]
          · simp [List.findIdx?_cons, hw, h2]
        · right
          constructor
          · simp [List.findIdx?_cons, hw, h1, find_epoch_loop]
          · simp [find_epoch_loop, hw]
            omega

/-- The packing step of the source equals the packing step written from the
claim's words. -/
theorem pack_step_eq_spec : pack_step = pack_spec_step := by
  funext acc tx
  unfold pack_step pack_spec_step _find_minimun_epoch_with_no_conflicts
  dsimp only
  rcases find_epoch_loop_dichotomy (tx.prev_read_keys ∪ tx.prev_write_keys) acc.1 with
    ⟨h1, h2⟩ | ⟨h1, h2⟩
  · rw [h2]
    rw [dif_neg (by omega)]
  · rw [h1]
    rw [dif_pos h2]
    have hg : acc.1.getD (find_epoch_loop (tx.prev_read_keys ∪ tx.prev_write_keys) acc.1) ∅ =
        acc.1.get ⟨find_epoch_loop (tx.prev_read_keys ∪ tx.prev_write_keys) acc.1, h2⟩ := by
      simp [List.getD_eq_getElem, h2]
    dsimp only
    rw [hg]

/-- Claim C5: with rescheduling enabled, _schedule_aborted_txs packs the
aborted transactions, taken in increasing id order, by placing each one in
the sub-epoch with the smallest index whose occupied write keys are disjoint
from the union of its read and write keys, extending that sub-epoch's
occupied keys with its write keys, and opening a new sub-epoch when no index
fits. -/
theorem schedule_aborted_txs_correct (txs : List AbortedTransaction) :
    _schedule_aborted_txs false txs = schedule_aborted_spec txs := by
  unfold _schedule_aborted_txs schedule_aborted_spec
  rw [if_neg (by simp), pack_step_eq_spec]

/-- Claim C9: with the disable-rescheduling feature, _schedule_aborted_txs
returns the empty sub-epoch list, and consequently _execute feeds no aborted
transaction to re-execution (and hence invalidates none): the aborted set is
dropped after being reported. -/
theorem disable_rescheduling_returns_empty :
    (∀ txs : List AbortedTransaction, _schedule_aborted_txs true txs = []) ∧
      ∀ (sim resim : SimOracle) (choice : SimulatedTransaction → Nat → Nat)
        (out : List ExecutableEthereumBatch),
        (_execute true sim resim choice out).reexecuted = [] ∧
          (_execute true sim resim choice out).invalidated = [] := by
  constructor
  · intro txs
    simp [_schedule_aborted_txs]
  · intro sim resim choice out
    constructor
    · simp [_execute, ScheduledInfo.fromSort, _schedule_aborted_txs]
    · simp [_execute, ScheduledInfo.fromSort, _schedule_aborted_txs]

/-- Claim C7: _execute returns exactly the digests of the window's batches in
unpack order, whatever the simulation outcomes, the scheduling choice and the
rescheduling flag (drops, aborts and rejections never change the digests). -/
theorem execute_returns_all_digests (disable_rescheduling : Bool)
    (sim resim : SimOracle) (choice : SimulatedTransaction → Nat → Nat)
    (out : List ExecutableEthereumBatch) :
    (_execute disable_rescheduling sim resim choice out).digests =
      out.map ExecutableEthereumBatch.digestOf := rfl

/-- Windowing auxiliary: bounded-length induction for the prepare_execution
loop. -/
theorem prepare_windows_flatten_aux (c : Nat) (hc : 0 < c) :
    ∀ (n : Nat) (out : List ExecutableEthereumBatch), out.length ≤ n →
      (prepare_execution_windows c out).flatten = out := by
  intro n
  induction n with
  | zero =>
      intro out hlen
      have hnil : out = [] := List.eq_nil_of_length_eq_zero (Nat.le_zero.mp hlen)
      subst hnil
      rw [prepare_execution_windows]
      simp
  | succ n ih =>
      intro out hlen
      by_cases he : out.isEmpty
      · have hnil : out = [] := List.isEmpty_iff.mp he
        subst hnil
        rw [prepare_execution_windows]
        simp
      · have hcond : ¬(out.isEmpty ∨ c = 0) := by
          rintro (hx | hx)
          · exact he hx
          · omega
        rw [prepare_execution_windows, dif_neg hcond]
        have hpos : 0 < out.length := by
          cases out with
          | nil => simp at he
          | cons a l => simp
        have hrec := ih (out.drop (min c out.length)) (by
          simp only [List.length_drop]
          omega)
        simp only [List.flatten_cons, hrec]
        exact List.take_append_drop _ out

/-- Claim C6: with a positive concurrency level, prepare_execution cuts the
batch list into successive windows of min(concurrency_level, remaining)
batches and executes them in order, so concatenating the windows returns
every input batch exactly once in the original order. -/
theorem prepare_execution_windows_cover (c : Nat)
    (out : List ExecutableEthereumBatch) (hc : 0 < c) :
    (prepare_execution_windows c out).flatten = out :=
  prepare_windows_flatten_aux c hc out.length out (Nat.le_refl _)

/-- Witness for claim C6 at a concrete window split. -/
theorem prepare_execution_windows_cover_witness :
    0 < 2 ∧
      (prepare_execution_windows 2
          [⟨1, [10]⟩, ⟨2, [20]⟩, ⟨3, [30]⟩]).flatten =
        [⟨1, [10]⟩, ⟨2, [20]⟩, ⟨3, [30]⟩] :=
  ⟨by decide, prepare_execution_windows_cover 2 [⟨1, [10]⟩, ⟨2, [20]⟩, ⟨3, [30]⟩] (by decide)⟩

/-- Symmetry of the per-epoch write-disjointness relation. -/
theorem epoch_disjoint_rel_symm : Symmetric epoch_disjoint_rel := by
  intro p q h he
  exact (h he.symm).symm

/-- One sort step preserves pairwise epoch write-disjointness of the
scheduled list: a newly scheduled transaction shares its epoch with a prior
writer of one of its keys only if the abort guard fired, in which case it was
aborted instead. -/
theorem hier_step_pairwise (st : SortState) (t : SimulatedTransaction)
    (h : st.scheduled.Pairwise epoch_disjoint_rel) :
    (hier_step st t).scheduled.Pairwise epoch_disjoint_rel := by
  unfold hier_step
  by_cases hab : hier_abort st.scheduled t
  · rw [if_pos hab]
    exact h
  · rw [if_neg hab]
    simp only
    rw [List.pairwise_append]
    refine ⟨h, List.pairwise_singleton _ _, ?_⟩
    intro p hp q hq
    simp only [List.mem_singleton] at hq
    subst hq
    intro hseq
    by_contra hnd
    refine hab ⟨p, hp, hseq, ?_⟩
    rw [Finset.not_disjoint_iff_nonempty_inter] at hnd
    exact hnd

/-- The whole sort fold preserves pairwise epoch write-disjointness. -/
theorem hier_fold_pairwise (l : List SimulatedTransaction) :
    ∀ st : SortState, st.scheduled.Pairwise epoch_disjoint_rel →
      ((l.foldl hier_step st).scheduled).Pairwise epoch_disjoint_rel := by
  induction l with
  | nil => intro st h; exact h
  | cons t rest ih =>
      intro st h
      exact ih (hier_step st t) (hier_step_pairwise st t h)

/-- Reorder moves only transactions with empty write sets, so pairwise epoch
write-disjointness survives any demotion choice. -/
theorem reorder_pairwise (choice : SimulatedTransaction → Nat → Nat) (st : SortState)
    (h : st.scheduled.Pairwise epoch_disjoint_rel) :
    ((reorder choice st).scheduled).Pairwise epoch_disjoint_rel := by
  unfold reorder
  simp only
  refine List.Pairwise.map _ ?_ h
  intro p q hpq
  by_cases hp : reorder_ok st.scheduled p.1 p.2 (choice p.1 p.2)
  · rw [if_pos hp]
    intro _
    rw [hp.1]
    exact Finset.disjoint_empty_left _
  · rw [if_neg hp]
    by_cases hq : reorder_ok st.scheduled q.1 q.2 (choice q.1 q.2)
    · rw [if_pos hq]
      intro _
      rw [hq.1]
      exact Finset.disjoint_empty_right _
    · rw [if_neg hq]
      exact hpq

/-- Claim C1: in the ScheduledInfo of the ACG pipeline (construct,
hierarchcial_sort, reorder, extract_schedule — sort and reorder modelled
from the spec), two distinct transactions of the same epoch have disjoint
write sets, for every demotion choice the reorder step is permitted to
make. -/
theorem acg_epoch_write_sets_disjoint
    (txs : List SimulatedTransaction) (choice : SimulatedTransaction → Nat → Nat)
    (g : List (SimulatedTransaction × Nat)) (hg : g ∈ scheduled_groups choice txs)
    (p q : SimulatedTransaction × Nat) (hp : p ∈ g) (hq : q ∈ g)
    (hne : p.1 ≠ q.1) : Disjoint p.1.write_set q.1.write_set := by
  rcases List.mem_map.mp hg with ⟨s, hs, hgdef⟩
  subst hgdef
  have hpw : ((acg_pipeline choice txs).scheduled).Pairwise epoch_disjoint_rel := by
    unfold acg_pipeline hierarchcial_sort
    exact reorder_pairwise choice _
      (hier_fold_pairwise (acg_construct txs) _ (List.Pairwise.nil))
  have hfil : (List.filter (fun p => decide (p.2 = s))
      (acg_pipeline choice txs).scheduled).Pairwise epoch_disjoint_rel :=
    hpw.sublist (List.filter_sublist _)
  have hpair : p ≠ q := fun he => hne (congrArg Prod.fst he)
  have hrel := List.Pairwise.forall epoch_disjoint_rel_symm hfil hp hq hpair
  refine hrel ?_
  have hps := of_decide_eq_true (List.mem_filter.mp hp).2
  have hqs := of_decide_eq_true (List.mem_filter.mp hq).2
  rw [hps, hqs]

/-- One sort step moves the incoming transaction to exactly one of the two
output lists: the underlying transactions of the state are extended by t. -/
theorem hier_step_perm (st : SortState) (t : SimulatedTransaction) :
    (((hier_step st t).scheduled.map Prod.fst) ++ (hier_step st t).aborted).Perm
      ((st.scheduled.map Prod.fst ++ st.aborted) ++ [t]) := by
  unfold hier_step
  by_cases hab : hier_abort st.scheduled t
  · rw [if_pos hab]
    simp only
    rw [← List.append_assoc]
  · rw [if_neg hab]
    simp only [List.map_append, List.map_cons, List.map_nil]
    have h1 : (st.scheduled.map Prod.fst ++ [t]) ++ st.aborted =
        st.scheduled.map Prod.fst ++ ([t] ++ st.aborted) := by
      rw [List.append_assoc]
    have h2 : (st.scheduled.map Prod.fst ++ st.aborted) ++ [t] =
        st.scheduled.map Prod.fst ++ (st.aborted ++ [t]) := by
      rw [List.append_assoc]
    rw [h1, h2]
    exact List.Perm.append_left _ List.perm_append_comm

/-- The sort fold partitions its input: scheduled plus aborted transactions
are a permutation of the starting state plus the processed list. -/
theorem hier_fold_perm (l : List SimulatedTransaction) :
    ∀ st : SortState,
      (((l.foldl hier_step st).scheduled.map Prod.fst) ++
          (l.foldl hier_step st).aborted).Perm
        ((st.scheduled.map Prod.fst ++ st.aborted) ++ l) := by
  induction l with
  | nil => intro st; simp
  | cons t rest ih =>
      intro st
      refine ((ih (hier_step st t)).trans ?_)
      refine ((hier_step_perm st t).append_right rest).trans ?_
      rw [List.append_assoc]
      rfl

/-- Reorder changes epoch numbers only: the scheduled transactions themselves
are untouched, and so is the abort set. -/
theorem reorder_map_fst (choice : SimulatedTransaction → Nat → Nat) (st : SortState) :
    ((reorder choice st).scheduled).map Prod.fst = st.scheduled.map Prod.fst := by
  unfold reorder
  simp only [List.map_map]
  refine List.map_congr_left ?_
  intro p _
  by_cases hp : reorder_ok st.scheduled p.1 p.2 (choice p.1 p.2)
  · simp [hp]
  · simp [hp]

/-- Distinct filter groups cover a list exactly once: flattening the filters
over a duplicate-free list of epoch values that covers every entry is a
permutation of the list itself. -/
theorem filter_groups_perm (seqs : List Nat) :
    ∀ sched : List (SimulatedTransaction × Nat), seqs.Nodup →
      (∀ p ∈ sched, p.2 ∈ seqs) →
      ((seqs.map fun s => sched.filter fun p => p.2 = s).flatten).Perm sched := by
  induction seqs with
  | nil =>
      intro sched _ hcov
      have : sched = [] := by
        cases sched with
        | nil => rfl
        | cons p rest => exact absurd (hcov p (List.mem_cons_self p rest)) (by simp)
      rw [this]
      simp
  | cons s rest ih =>
      intro sched hnd hcov
      simp only [List.map_cons, List.flatten_cons]
      have hrest : ∀ s2 ∈ rest,
          sched.filter (fun p => p.2 = s2) =
            (sched.filter fun p => ¬p.2 = s).filter fun p => p.2 = s2 := by
        intro s2 hs2
        rw [List.filter_filter]
        refine (List.filter_congr ?_).symm
        intro p _
        have hne : s2 ≠ s := by
          intro he
          subst he
          exact (List.nodup_cons.mp hnd).1 hs2
        by_cases hp2 : p.2 = s2
        · simp [hp2, hne]
        · simp [hp2]
      have hmapeq : (rest.map fun s2 => sched.filter fun p => p.2 = s2) =
          rest.map fun s2 => (sched.filter fun p => ¬p.2 = s).filter fun p => p.2 = s2 :=
        List.map_congr_left hrest
      rw [hmapeq]
      have hcov2 : ∀ p ∈ (sched.filter fun p => ¬p.2 = s), p.2 ∈ rest := by
        intro p hp
        have hmem := (List.mem_filter.mp hp).1
        have hneq := of_decide_eq_true (List.mem_filter.mp hp).2
        rcases List.mem_cons.mp (hcov p hmem) with he | he
        · exact absurd he hneq
        · exact he
      have hperm := ih (sched.filter fun p => ¬p.2 = s) (List.nodup_cons.mp hnd).2 hcov2
      refine (List.Perm.append_left _ hperm).trans ?_
      simp only [decide_not]
      exact List.filter_append_perm _ sched

/-- The epoch grouping of _schedule_sorted_txs keeps every scheduled
transaction exactly once. -/
theorem schedule_sorted_groups_perm (sched : List (SimulatedTransaction × Nat)) :
    ((_schedule_sorted_groups sched).flatten).Perm sched := by
  unfold _schedule_sorted_groups
  refine filter_groups_perm (epoch_values sched) sched ?_ ?_
  · unfold epoch_values
    exact ((List.perm_insertionSort _ _).nodup_iff).mpr (List.nodup_dedup _)
  · intro p hp
    unfold epoch_values
    rw [(List.perm_insertionSort _ _).mem_iff, List.mem_dedup]
    exact List.mem_map_of_mem Prod.snd hp

/-- Appending one transaction inside a sub-epoch extends the flattened
schedule by exactly that transaction (up to position). -/
theorem set_flatten_perm :
    ∀ (sch : List (List AbortedTransaction)) (i : Nat), i < sch.length →
      ∀ tx : AbortedTransaction,
        ((sch.set i ((sch.getD i []) ++ [tx])).flatten).Perm (sch.flatten ++ [tx]) := by
  intro sch
  induction sch with
  | nil => intro i hi; simp at hi
  | cons a rest ih =>
      intro i hi tx
      cases i with
      | zero =>
          simp only [List.set_cons_zero, List.getD_cons_zero, List.flatten_cons]
          have h1 : (a ++ [tx]) ++ rest.flatten = a ++ ([tx] ++ rest.flatten) := by
            rw [List.append_assoc]
          have h2 : (a ++ rest.flatten) ++ [tx] = a ++ (rest.flatten ++ [tx]) := by
            rw [List.append_assoc]
          rw [h1, h2]
          exact List.Perm.append_left a List.perm_append_comm
      | succ n =>
          simp only [List.set_cons_succ, List.getD_cons_succ, List.flatten_cons]
          have hn : n < rest.length := by
            simp at hi
            omega
          have hrec := ih n hn tx
          have h2 : (a ++ rest.flatten) ++ [tx] = a ++ (rest.flatten ++ [tx]) := by
            rw [List.append_assoc]
          rw [h2]
          exact List.Perm.append_left a hrec

/-- The packing loop of _schedule_aborted_txs loses and duplicates nothing:
flattening its schedule appends exactly the processed transactions, as long
as the epoch map and the schedule stay aligned. -/
theorem pack_fold_flatten_perm :
    ∀ (l : List AbortedTransaction) (em : List (Finset Key))
      (sch : List (List AbortedTransaction)), em.length = sch.length →
      (((l.foldl pack_step (em, sch)).2).flatten).Perm (sch.flatten ++ l) := by
  intro l
  induction l with
  | nil => intro em sch _; simp
  | cons tx rest ih =>
      intro em sch hlen
      simp only [List.foldl_cons]
      unfold pack_step
      simp only
      by_cases he : _find_minimun_epoch_with_no_conflicts tx.prev_read_keys
          tx.prev_write_keys em < em.length
      · rw [dif_pos he]
        have hrec := ih
          (em.set (_find_minimun_epoch_with_no_conflicts tx.prev_read_keys
            tx.prev_write_keys em)
            ((em.get ⟨_find_minimun_epoch_with_no_conflicts tx.prev_read_keys
              tx.prev_write_keys em, he⟩) ∪ tx.prev_write_keys))
          (sch.set (_find_minimun_epoch_with_no_conflicts tx.prev_read_keys
            tx.prev_write_keys em)
            ((sch.getD (_find_minimun_epoch_with_no_conflicts tx.prev_read_keys
              tx.prev_write_keys em) []) ++ [tx]))
          (by simp [hlen])
        refine hrec.trans ?_
        have hset := set_flatten_perm sch
          (_find_minimun_epoch_with_no_conflicts tx.prev_read_keys
            tx.prev_write_keys em)
          (by omega) tx
        refine (hset.append_right rest).trans ?_
        rw [List.append_assoc]
        exact List.Perm.refl _
      · rw [dif_neg he]
        have hrec := ih (em ++ [tx.prev_write_keys]) (sch ++ [[tx]]) (by simp [hlen])
        refine hrec.trans ?_
        simp only [List.flatten_append, List.flatten_cons, List.flatten_nil,
          List.append_nil]
        rw [List.append_assoc]
        exact List.Perm.refl _

/-- The sub-epoch packing of _schedule_aborted_txs (rescheduling enabled)
keeps every aborted transaction exactly once. -/
theorem schedule_aborted_flatten_perm (txs : List AbortedTransaction) :
    ((_schedule_aborted_txs false txs).flatten).Perm txs := by
  unfold _schedule_aborted_txs
  rw [if_neg (by simp)]
  have h := pack_fold_flatten_perm (txs.insertionSort fun a b => a.id ≤ b.id) [] [] rfl
  simp only [List.flatten_nil, List.nil_append] at h
  exact h.trans (List.perm_insertionSort _ txs)

/-- Combined permutation: the pipeline output covers exactly the simulated
input. -/
theorem pipeline_raws_perm (txs : List SimulatedTransaction)
    (choice : SimulatedTransaction → Nat → Nat) :
    ((scheduled_raws choice txs ++ aborted_raws choice txs).Perm
      (txs.map SimulatedTransaction.raw_tx)) := by
  have hs1 : (scheduled_raws choice txs).Perm
      (((acg_pipeline choice txs).scheduled).map fun p => p.1.raw_tx) :=
    (schedule_sorted_groups_perm _).map _
  have hs2 : (((acg_pipeline choice txs).scheduled).map fun p => p.1.raw_tx) =
      ((((acg_pipeline choice txs).scheduled).map Prod.fst).map
        SimulatedTransaction.raw_tx) := by
    rw [List.map_map]
    rfl
  have hs3 : (((acg_pipeline choice txs).scheduled).map Prod.fst) =
      (((hierarchcial_sort txs).scheduled).map Prod.fst) :=
    reorder_map_fst choice _
  have ha1 : (aborted_raws choice txs).Perm
      (((acg_pipeline choice txs).aborted.map AbortedTransaction.from).map
        AbortedTransaction.raw_tx) := by
    unfold aborted_raws ScheduledInfo.fromSort
    exact (schedule_aborted_flatten_perm _).map _
  have ha2 : (((acg_pipeline choice txs).aborted.map AbortedTransaction.from).map
      AbortedTransaction.raw_tx) =
      ((acg_pipeline choice txs).aborted.map SimulatedTransaction.raw_tx) := by
    rw [List.map_map]
    rfl
  have ha3 : (acg_pipeline choice txs).aborted = (hierarchcial_sort txs).aborted := rfl
  have hfold := hier_fold_perm (acg_construct txs) { scheduled := [], aborted := [] }
  simp only [List.map_nil, List.nil_append] at hfold
  have hcore : ((((hierarchcial_sort txs).scheduled).map Prod.fst) ++
      (hierarchcial_sort txs).aborted).Perm (acg_construct txs) := by
    unfold hierarchcial_sort
    exact hfold
  refine ((hs1.append ha1).trans ?_)
  rw [hs2, hs3, ha2, ha3, ← List.map_append]
  refine ((hcore.map SimulatedTransaction.raw_tx).trans ?_)
  exact (List.perm_insertionSort _ txs).map _

/-- Claim C2: every simulated transaction of a window appears exactly once
across the union of scheduled_txs and aborted_txs of the window's
ScheduledInfo, and the two sides are disjoint (sort and reorder modelled
from the spec; identity of a transaction is its raw indexed transaction,
which unpacking makes unique per window). -/
theorem acg_total_coverage (txs : List SimulatedTransaction)
    (choice : SimulatedTransaction → Nat → Nat)
    (hnd : (txs.map SimulatedTransaction.raw_tx).Nodup) :
    ((scheduled_raws choice txs ++ aborted_raws choice txs).Perm
        (txs.map SimulatedTransaction.raw_tx)) ∧
      (∀ r, ¬(r ∈ scheduled_raws choice txs ∧ r ∈ aborted_raws choice txs)) ∧
      ∀ r ∈ txs.map SimulatedTransaction.raw_tx,
        (scheduled_raws choice txs ++ aborted_raws choice txs).count r = 1 := by
  have hperm := pipeline_raws_perm txs choice
  refine ⟨hperm, ?_, ?_⟩
  · rintro r ⟨hr1, hr2⟩
    have h1 : 0 < (scheduled_raws choice txs).count r := List.count_pos_iff.mpr hr1
    have h2 : 0 < (aborted_raws choice txs).count r := List.count_pos_iff.mpr hr2
    have hc := hperm.count_eq r
    rw [List.count_append] at hc
    have hle := List.nodup_iff_count_le_one.mp hnd r
    omega
  · intro r hr
    have hone : (txs.map SimulatedTransaction.raw_tx).count r = 1 :=
      List.count_eq_one_of_mem hnd hr
    rw [hperm.count_eq r, hone]

/-- Witness for claim C1 at a concrete two-transaction epoch. -/
theorem acg_epoch_write_sets_disjoint_witness :
    ((simA, 1), (simB, 1)).1 ∈ [(simA, 1), (simB, 1)] ∧
      [(simA, 1), (simB, 1)] ∈ scheduled_groups trivial_choice [simA, simB] ∧
      Disjoint simA.write_set simB.write_set :=
  ⟨by decide, by decide,
    acg_epoch_write_sets_disjoint [simA, simB] trivial_choice
      [(simA, 1), (simB, 1)] (by decide) (simA, 1) (simB, 1) (by decide) (by decide)
      (by decide)⟩

/-- Witness for claim C2 at a concrete window. -/
theorem acg_total_coverage_witness :
    (([simA, simB].map SimulatedTransaction.raw_tx).Nodup) ∧
      (((scheduled_raws trivial_choice [simA, simB] ++
          aborted_raws trivial_choice [simA, simB]).Perm
            ([simA, simB].map SimulatedTransaction.raw_tx)) ∧
        (∀ r, ¬(r ∈ scheduled_raws trivial_choice [simA, simB] ∧
            r ∈ aborted_raws trivial_choice [simA, simB])) ∧
        ∀ r ∈ [simA, simB].map SimulatedTransaction.raw_tx,
          (scheduled_raws trivial_choice [simA, simB] ++
            aborted_raws trivial_choice [simA, simB]).count r = 1) :=
  ⟨by decide, acg_total_coverage [simA, simB] trivial_choice (by decide)⟩

/-- The hierarchical sort modelled from the spec's formula disagrees with the
repository's own test vector: on the input of test_scenario_1 the formula
schedules every transaction, in epochs of ids [[1, 2, 4, 5], [3, 6]], while
tests/optme_tests.rs asserts that the shipped scheduler answers
scheduled [[2], [3, 4], [5, 6]] with transaction 1 aborted.  The spec's
sentence therefore does not describe the implemented sort. -/
theorem spec_sort_differs_from_test_scenario_1 :
    ((scheduled_groups trivial_choice scenario_1_txs).map fun g =>
        g.map fun p => p.1.tx_id) = [[1, 2, 4, 5], [3, 6]] ∧
      (acg_pipeline trivial_choice scenario_1_txs).aborted = [] ∧
      ¬(((scheduled_groups trivial_choice scenario_1_txs).map fun g =>
          g.map fun p => p.1.tx_id) = [[2], [3, 4], [5, 6]]) :=
  ⟨by decide, by decide, by decide⟩

/-- Members bound the running maximum. -/
theorem le_foldr_max (l : List Nat) : ∀ a ∈ l, a ≤ l.foldr max 0 := by
  induction l with
  | nil => intro a ha; simp at ha
  | cons b rest ih =>
      intro a ha
      rcases List.mem_cons.mp ha with he | he
      · subst he
        simp [List.foldr_cons]
      · have := ih a he
        simp only [List.foldr_cons]
        omega

/-- The abort guard of the spec's formula can never fire: a prior writer of a
key the transaction writes already contributes to the maximum that defines
hier_seq, so its epoch is strictly below hier_seq.  This makes the spec's
abort sentence vacuous, in contradiction with the abort sets its own
scenarios and the repository's tests expect. -/
theorem hier_abort_never (sched : List (SimulatedTransaction × Nat))
    (t : SimulatedTransaction) : ¬hier_abort sched t := by
  rintro ⟨p, hp, hseq, hinter⟩
  have hconf : (p.1.write_set ∩ (t.read_set ∪ t.write_set)).Nonempty := by
    rcases hinter with ⟨x, hx⟩
    rcases Finset.mem_inter.mp hx with ⟨hx1, hx2⟩
    exact ⟨x, Finset.mem_inter.mpr ⟨hx1, Finset.mem_union_right _ hx2⟩⟩
  have hmem : p ∈ sched.filter fun q =>
      (q.1.write_set ∩ (t.read_set ∪ t.write_set)).Nonempty := by
    rw [List.mem_filter]
    exact ⟨hp, decide_eq_true hconf⟩
  have hmem2 : p.2 ∈ (sched.filter fun q =>
      (q.1.write_set ∩ (t.read_set ∪ t.write_set)).Nonempty).map Prod.snd :=
    List.mem_map_of_mem Prod.snd hmem
  have hle := le_foldr_max _ p.2 hmem2
  unfold hier_seq at hseq
  omega

/-- Consequence: the pipeline modelled from the spec's formula never aborts
anything, contradicting the abort sets asserted by tests/optme_tests.rs. -/
theorem spec_formula_never_aborts (txs : List SimulatedTransaction)
    (choice : SimulatedTransaction → Nat → Nat) :
    (acg_pipeline choice txs).aborted = [] := by
  have hfold : ∀ (l : List SimulatedTransaction) (st : SortState),
      (l.foldl hier_step st).aborted = st.aborted := by
    intro l
    induction l with
    | nil => intro st; rfl
    | cons t rest ih =>
        intro st
        rw [List.foldl_cons, ih]
        unfold hier_step
        rw [if_neg (hier_abort_never st.scheduled t)]
  show (hierarchcial_sort txs).aborted = []
  unfold hierarchcial_sort
  rw [hfold]
